import Mathlib

/-
Verification of the tax-sale-states extraction and workbook-synthesis program
(src/tax_sale_states.py) against its natural-language specification.

The Python source is shallowly embedded below.  HTML documents are modelled at
the boundary of the BeautifulSoup selector calls: the two `soup.select(...)`
results in `TaxSaleStates.parse` become the two input lists (heading texts and
content nodes), a content node carrying both its table rows (the result of
selecting `tr`/`td` and taking each cell's text) and its flat text.  Python
dictionaries are modelled as association lists with Python's insertion-order
semantics (updating an existing key keeps its position, new keys append).
Python exceptions are modelled with `Except`.  `str.replace` is modelled by
`replaceAll` over `List Char` (leftmost, non-overlapping).
-/

set_option maxHeartbeats 1000000

/-! ## String helpers modelling Python `str` methods -/

/-- Model of Python `str.strip()` with no argument: drop whitespace from both ends. -/
def pyStrip (s : String) : String :=
  ⟨((s.data.dropWhile Char.isWhitespace).reverse.dropWhile Char.isWhitespace).reverse⟩

/-- Model of Python `str.lstrip()`: drop leading whitespace. -/
def pyLStrip (s : String) : String :=
  ⟨s.data.dropWhile Char.isWhitespace⟩

/-- Model of Python `str.rstrip(":")`: drop all trailing colon characters. -/
def stripColonsRight (s : String) : String :=
  ⟨(s.data.reverse.dropWhile (· == ':')).reverse⟩

/-- Boolean test that `p` is an initial segment of `s` (Python `str.startswith`). -/
def leadsWith : List Char → List Char → Bool
  | [], _ => true
  | _ :: _, [] => false
  | a :: as, b :: bs => a == b && leadsWith as bs

/-- Model of `text.strip().removeprefix("NOTES:").lstrip()` applied to a notes node. -/
def cleanNotes (s : String) : String :=
  let t := pyStrip s
  let u : String :=
    if leadsWith "NOTES:".data t.data then ⟨t.data.drop "NOTES:".data.length⟩ else t
  pyLStrip u

/-! ## Records: Python dicts as ordered association lists -/

/-- A record: an insertion-ordered mapping from column title to string value. -/
abbrev Rec := List (String × String)

/-- The key sequence of a record (Python `dict` iteration order). -/
def keysOf (r : Rec) : List String := r.map Prod.fst

/-- Python `key in dict`. -/
def hasKey (d : Rec) (k : String) : Bool := d.any (fun e => e.1 == k)

/-- Python `d[k] = v` on an insertion-ordered dict: updating an existing key
keeps its position, a new key is appended at the end. -/
def dictInsert (d : Rec) (k v : String) : Rec :=
  if hasKey d k then d.map (fun e => if e.1 == k then (e.1, v) else e)
  else d ++ [(k, v)]

/-- Folding a sequence of entries into a dict (Python `{**base, **items}` /
sequential `d[k] = v` statements). -/
def mergeItems : Rec → Rec → Rec
  | base, [] => base
  | base, e :: rest => mergeItems (dictInsert base e.1 e.2) rest

/-! ## The extraction model (`TaxSaleStates`) -/

/-- `key_title[key] if key in key_title else key` (KeyTitleMapper). -/
def mapTitle (kt : List (String × String)) (k : String) : String :=
  (List.lookup k kt).getD k

/-- The canonical titles of a schema: `key_title.values()`. -/
def titlesOf (kt : List (String × String)) : List String := kt.map Prod.snd

/-- Loop body of `TaxSaleStates.parse_table`: walk the `tr` rows, take rows
with at least two `td` cells, key = cell 1 trimmed with trailing colons
stripped, value = cell 2 trimmed, skip rows where both are empty, map the key
through the schema, and insert into the result dict. -/
def parseTableGo (kt : List (String × String)) : List (List String) → Rec → Rec
  | [], result => result
  | row :: rest, result =>
    match row with
    | c0 :: c1 :: _ =>
      let key := stripColonsRight (pyStrip c0)
      let value := pyStrip c1
      if key.length ≤ 0 ∧ value.length ≤ 0 then parseTableGo kt rest result
      else parseTableGo kt rest (dictInsert result (mapTitle kt key) value)
    | _ => parseTableGo kt rest result

/-- `TaxSaleStates.parse_table`. -/
def parse_table (kt : List (String × String)) (rows : List (List String)) : Rec :=
  parseTableGo kt rows []

/-- The per-row outcome of the `parse_table` loop: `none` when the row is
skipped (fewer than two cells, or both key and value empty after trimming),
otherwise the (schema-mapped key, value) entry it contributes. -/
def rowEntry (kt : List (String × String)) (row : List String) : Option (String × String) :=
  match row with
  | c0 :: c1 :: _ =>
    let key := stripColonsRight (pyStrip c0)
    let value := pyStrip c1
    if key.length ≤ 0 ∧ value.length ≤ 0 then none
    else some (mapTitle kt key, value)
  | _ => none

/-- `TaxSaleStates.add_missing_keys`: backfill every schema title absent from
the record with the empty string, appending in schema order. -/
def add_missing_keys (titles : List String) (row : Rec) : Rec :=
  match titles with
  | [] => row
  | t :: ts => add_missing_keys ts (if hasKey row t then row else row ++ [(t, "")])

/-- A content node selected by
`.e-con-inner > .e-child > .e-child .elementor-widget-text-editor`:
`rows` are the texts of the `td` cells of each `tr` row inside it (its view as
a table), `text` is its flat `get_text()` (its view as a notes block). -/
structure HtmlNode where
  rows : List (List String)
  text : String
  deriving DecidableEq, Repr

/-- `itertools.zip_longest(it, it)` over one iterator: consecutive elements are
paired; an odd trailing element is paired with `None`. -/
def pairUp : List α → List (α × Option α)
  | [] => []
  | [a] => [(a, none)]
  | a :: b :: rest => (a, some b) :: pairUp rest

/-- Python exceptions that `TaxSaleStates.parse` can raise. -/
inductive PyErr where
  | indexError
  | attributeError
  deriving DecidableEq, Repr

/-- Loop body of `TaxSaleStates.parse`: for the i-th (table, notes) pair, read
the i-th heading (raising `IndexError` past the end), parse the table, read the
notes text (`AttributeError` on a `None` partner from an odd pairing), assemble
`{"State": ..., **table_items, "Description": ...}` and backfill missing
schema titles. -/
def parseLoop (kt : List (String × String)) (headings : List String) :
    List (HtmlNode × Option HtmlNode) → Nat → Except PyErr (List Rec)
  | [], _ => .ok []
  | (tbl, nts) :: rest, i =>
    match headings.get? i with
    | none => .error .indexError
    | some h =>
      let state := pyStrip h
      let table_items := parse_table kt tbl.rows
      match nts with
      | none => .error .attributeError
      | some n =>
        let description := cleanNotes n.text
        let item := add_missing_keys (titlesOf kt)
          (dictInsert (mergeItems (dictInsert [] "State" state) table_items)
            "Description" description)
        match parseLoop kt headings rest (i + 1) with
        | .ok items => .ok (item :: items)
        | .error e => .error e

/-- `TaxSaleStates.parse`, taking the two selector results: the heading texts
(`.elementor-widget-menu-anchor + .elementor-widget-heading
.elementor-heading-title` nodes) and the table/notes content nodes. -/
def parse (kt : List (String × String)) (headings : List String)
    (nodes : List HtmlNode) : Except PyErr (List Rec) :=
  parseLoop kt headings (pairUp nodes) 0

/-- The `KEY_TITLE` schema from the source. -/
def KEY_TITLE : List (String × String) := [
  ("State", "State"),
  ("Type", "Type"),
  ("Bidding Process", "Bidding process"),
  ("Frequency", "Frequency"),
  ("Interest Rate / Penalty", "Interest rate / penalty"),
  ("Redemption Period", "Redemption period"),
  ("Online Auction", "Online auction"),
  ("Over the Counter", "Over the counter"),
  ("Statute", "Statute"),
  ("Notes", "Notes"),
  ("Description", "Description")
]

/-! ## The theme patch (`WorkbookController.update_theme`) -/

/-- `p` is an initial segment of `s`. -/
def startsList (p s : List Char) : Prop := ∃ t, s = p ++ t

/-- `p` is a final segment of `s`. -/
def endsList (p s : List Char) : Prop := ∃ t, s = t ++ p

/-- `p` occurs as a contiguous segment of `s` (Python `p in s` on strings). -/
def occursIn (p s : List Char) : Prop := ∃ a b, s = a ++ p ++ b

theorem leadsWith_iff : ∀ p s : List Char, leadsWith p s = true ↔ startsList p s
  | [], s => by simp [leadsWith, startsList]
  | a :: as, [] => by simp [leadsWith, startsList]
  | a :: as, b :: bs => by
    simp only [leadsWith, Bool.and_eq_true, beq_iff_eq, leadsWith_iff as bs, startsList,
      List.cons_append, List.cons.injEq]
    constructor
    · rintro ⟨rfl, t, rfl⟩
      exact ⟨t, rfl, rfl⟩
    · rintro ⟨t, rfl, rfl⟩
      exact ⟨rfl, t, rfl⟩

instance decStartsList (p s : List Char) : Decidable (startsList p s) :=
  decidable_of_iff _ (leadsWith_iff p s)

theorem endsList_iff_reverse (p s : List Char) :
    endsList p s ↔ startsList p.reverse s.reverse := by
  constructor
  · rintro ⟨t, rfl⟩
    exact ⟨t.reverse, by simp⟩
  · rintro ⟨t, h⟩
    refine ⟨t.reverse, ?_⟩
    have h2 := congrArg List.reverse h
    simpa using h2

instance decEndsList (p s : List Char) : Decidable (endsList p s) :=
  decidable_of_iff _ (endsList_iff_reverse p s).symm

theorem occursIn_cons_iff (p : List Char) (c : Char) (cs : List Char) :
    occursIn p (c :: cs) ↔ startsList p (c :: cs) ∨ occursIn p cs := by
  constructor
  · rintro ⟨a, b, h⟩
    match a, h with
    | [], h => exact Or.inl ⟨b, by simpa using h⟩
    | d :: a', h =>
      simp only [List.cons_append, List.cons.injEq] at h
      exact Or.inr ⟨a', b, h.2⟩
  · rintro (⟨t, h⟩ | ⟨a, b, h⟩)
    · exact ⟨[], t, by simpa using h⟩
    · exact ⟨c :: a, b, by simp [h]⟩

/-- Scanner used to decide occurrence. -/
def occursB (p : List Char) : List Char → Bool
  | [] => leadsWith p []
  | c :: cs => leadsWith p (c :: cs) || occursB p cs

theorem occursB_iff (p : List Char) : ∀ s, occursB p s = true ↔ occursIn p s
  | [] => by
    simp only [occursB, leadsWith_iff, startsList, occursIn]
    constructor
    · rintro ⟨t, h⟩
      exact ⟨[], t, by simpa using h⟩
    · rintro ⟨a, b, h⟩
      rw [eq_comm, List.append_eq_nil] at h
      obtain ⟨h1, h2⟩ := h
      rw [List.append_eq_nil] at h1
      exact ⟨[], by simp [h1.1, h1.2]⟩
  | c :: cs => by
    simp only [occursB, Bool.or_eq_true, leadsWith_iff, occursB_iff p cs,
      occursIn_cons_iff]

instance decOccursIn (p s : List Char) : Decidable (occursIn p s) :=
  decidable_of_iff _ (occursB_iff p s)

/-- One `str.replace(p, r)` call: replace every (leftmost, non-overlapping)
occurrence of `p` in the subject with `r`. -/
def replaceAll (p r : List Char) : List Char → List Char
  | [] => []
  | c :: cs =>
    if leadsWith p (c :: cs) then r ++ replaceAll p r (cs.drop (p.length - 1))
    else c :: replaceAll p r cs
termination_by s => s.length
decreasing_by
  · simp only [List.length_drop, List.length_cons]
    omega
  · simp only [List.length_cons]
    omega

/-- The ten original-to-replacement color token substitutions of
`WorkbookController.update_theme`, in source (dict insertion) order. -/
def colorPairs : List (List Char × List Char) :=
  [("val=\"1F497D\"".data, "val=\"44546A\"".data),
   ("val=\"EEECE1\"".data, "val=\"E7E6E6\"".data),
   ("val=\"4F81BD\"".data, "val=\"5B9BD5\"".data),
   ("val=\"C0504D\"".data, "val=\"ED7D31\"".data),
   ("val=\"9BBB59\"".data, "val=\"A5A5A5\"".data),
   ("val=\"8064A2\"".data, "val=\"FFC000\"".data),
   ("val=\"4BACC6\"".data, "val=\"4472C4\"".data),
   ("val=\"F79646\"".data, "val=\"70AD47\"".data),
   ("val=\"0000FF\"".data, "val=\"0563C1\"".data),
   ("val=\"800080\"".data, "val=\"954F72\"".data)]

/-- The `for original, replacement in color.items(): xml = xml.replace(...)` loop. -/
def applyAll : List (List Char × List Char) → List Char → List Char
  | [], xml => xml
  | pr :: rest, xml => applyAll rest (replaceAll pr.1 pr.2 xml)

/-- `WorkbookController.update_theme` as a transformation of the theme XML text. -/
def update_theme (xml : List Char) : List Char := applyAll colorPairs xml

/-- Junction conditions between a pattern `p` and a replacement text `r` under
which substituting `r` (for any pattern) can never create a fresh occurrence of
`p`: `p` does not occur in `r`, no nonempty proper leading segment of `p` ends
`r`, no nonempty proper trailing segment of `p` starts `r`, and `p` is too
short to contain `r` strictly inside itself. -/
def SafePair (p r : List Char) : Prop :=
  p ≠ [] ∧ p.length ≤ r.length + 1 ∧ ¬ occursIn p r ∧
  (∀ j, j < p.length → 0 < j → ¬ endsList (p.take j) r) ∧
  (∀ j, j < p.length → 0 < j → ¬ startsList (p.drop j) r)

instance decSafePair (p r : List Char) : Decidable (SafePair p r) := by
  unfold SafePair
  infer_instance

/-- Every pattern of the substitution list is safe against every replacement. -/
def SafeList (l : List (List Char × List Char)) : Prop :=
  ∀ pr₁ ∈ l, ∀ pr₂ ∈ l, SafePair pr₁.1 pr₂.2

instance decSafeList (l : List (List Char × List Char)) : Decidable (SafeList l) := by
  unfold SafeList
  infer_instance

/-- The process-wide state touched by `WorkbookController.__init__`: the class
flag `was_theme_updated`, the module-level theme XML, and an instrumentation
counter recording how many times the patch body has run. -/
structure ThemeState where
  was_theme_updated : Bool
  theme_xml : List Char
  patch_runs : Nat
  deriving Repr

/-- `WorkbookController.__init__`: run `update_theme` and set the flag, unless
the flag is already set. -/
def initWorkbookController (s : ThemeState) : ThemeState :=
  if s.was_theme_updated then s
  else { was_theme_updated := true, theme_xml := update_theme s.theme_xml,
         patch_runs := s.patch_runs + 1 }

/-- Construct `n` `WorkbookController` instances in sequence. -/
def constructControllers : Nat → ThemeState → ThemeState
  | 0, s => s
  | n + 1, s => constructControllers n (initWorkbookController s)

/-! ## Lemmas about `replaceAll` -/

theorem not_occursIn_nil {p : List Char} (hp : p ≠ []) : ¬ occursIn p [] := by
  rintro ⟨a, b, h⟩
  rw [eq_comm, List.append_eq_nil] at h
  rw [List.append_eq_nil] at h
  exact hp h.1.2

theorem startsList_nil_subject {u : List Char} (h : startsList u []) : u = [] := by
  obtain ⟨t, ht⟩ := h
  rw [eq_comm, List.append_eq_nil] at ht
  exact ht.1

theorem startsList_cons_elim {u : List Char} {c : Char} {x : List Char}
    (h : startsList u (c :: x)) : u = [] ∨ ∃ u', u = c :: u' ∧ startsList u' x := by
  obtain ⟨t, ht⟩ := h
  match u, ht with
  | [], _ => exact Or.inl rfl
  | d :: u', ht =>
    simp only [List.cons_append, List.cons.injEq] at ht
    exact Or.inr ⟨u', by rw [ht.1], ⟨t, ht.2⟩⟩

theorem startsList_append_short {u r x : List Char} (h : startsList u (r ++ x))
    (hl : u.length ≤ r.length) : startsList u r := by
  obtain ⟨t, ht⟩ := h
  have h2 := congrArg (List.take u.length) ht
  rw [List.take_append_of_le_length hl, List.take_left] at h2
  refine ⟨r.drop u.length, ?_⟩
  conv_lhs => rw [← List.take_append_drop u.length r]
  rw [h2]

theorem endsList_drop {t l : List Char} {k : Nat} (h : endsList t (List.drop k l)) :
    endsList t l := by
  obtain ⟨w, hw⟩ := h
  refine ⟨l.take k ++ w, ?_⟩
  rw [List.append_assoc, ← hw, List.take_append_drop]

theorem endsList_cons {t : List Char} (c : Char) {cs : List Char} (h : endsList t cs) :
    endsList t (c :: cs) := by
  obtain ⟨w, hw⟩ := h
  exact ⟨c :: w, by rw [hw, List.cons_append]⟩

/-- If `p` does not occur in `s`, then `s.replace(p, r)` returns `s` unchanged. -/
theorem replaceAll_of_not_occurs (p r : List Char) :
    ∀ s, ¬ occursIn p s → replaceAll p r s = s
  | [], _ => by simp [replaceAll]
  | c :: cs, h => by
    have h1 : ¬ startsList p (c :: cs) := fun hs =>
      h ((occursIn_cons_iff p c cs).mpr (Or.inl hs))
    have h2 : ¬ occursIn p cs := fun hs => h ((occursIn_cons_iff p c cs).mpr (Or.inr hs))
    have hl : ¬ leadsWith p (c :: cs) = true := fun hb =>
      absurd ((leadsWith_iff _ _).mp hb) h1
    rw [replaceAll, if_neg hl, replaceAll_of_not_occurs p r cs h2]

/-- Decomposition of an initial segment of a `replaceAll` result: it is either
an initial segment of the untouched subject, or it reaches into a substituted
copy of the replacement text. -/
theorem startsList_replaceAll (q r : List Char) :
    ∀ (s u : List Char), startsList u (replaceAll q r s) →
      startsList u s ∨ ∃ m X, m < u.length ∧ startsList (u.drop m) (r ++ X) := by
  suffices H : ∀ n s, s.length ≤ n → ∀ u, startsList u (replaceAll q r s) →
      startsList u s ∨ ∃ m X, m < u.length ∧ startsList (u.drop m) (r ++ X) by
    exact fun s u => H s.length s le_rfl u
  intro n
  induction n with
  | zero =>
    intro s hs u hu
    have hnil : s = [] := List.length_eq_zero.mp (Nat.le_zero.mp hs)
    subst hnil
    simp only [replaceAll] at hu
    rw [startsList_nil_subject hu]
    exact Or.inl ⟨[], rfl⟩
  | succ n ih =>
    intro s hs u hu
    match s with
    | [] =>
      simp only [replaceAll] at hu
      rw [startsList_nil_subject hu]
      exact Or.inl ⟨[], rfl⟩
    | c :: cs =>
      rw [replaceAll] at hu
      by_cases hm : leadsWith q (c :: cs) = true
      · rw [if_pos hm] at hu
        match u with
        | [] => exact Or.inl ⟨c :: cs, rfl⟩
        | d :: u' =>
          exact Or.inr ⟨0, replaceAll q r (cs.drop (q.length - 1)), by simp, hu⟩
      · rw [if_neg hm] at hu
        rcases startsList_cons_elim hu with h0 | ⟨u', rfl, hu'⟩
        · subst h0
          exact Or.inl ⟨c :: cs, rfl⟩
        · have hcs : cs.length ≤ n := by
            simp only [List.length_cons] at hs
            omega
          rcases ih cs hcs u' hu' with h1 | ⟨m, X, hmlt, hst⟩
          · obtain ⟨t, ht⟩ := h1
            exact Or.inl ⟨t, by rw [ht, List.cons_append]⟩
          · exact Or.inr ⟨m + 1, X, by simp; omega, by simpa using hst⟩

/-- Core lemma: substituting `r` for pattern `q` cannot leave an occurrence of
a pattern `p` satisfying the junction conditions, provided every position of
the subject either begins a `q`-match (and is therefore consumed) or does not
begin a `p`-match. -/
theorem not_occurs_replaceAll (p q r : List Char) (hp : p ≠ []) (_hq : q ≠ [])
    (hlen : p.length ≤ r.length + 1)
    (hA : ¬ occursIn p r)
    (hB : ∀ j, j < p.length → 0 < j → ¬ endsList (p.take j) r)
    (hC : ∀ j, j < p.length → 0 < j → ¬ startsList (p.drop j) r) :
    ∀ s, (∀ t, endsList t s → startsList q t ∨ ¬ startsList p t) →
      ¬ occursIn p (replaceAll q r s) := by
  suffices H : ∀ n s, s.length ≤ n →
      (∀ t, endsList t s → startsList q t ∨ ¬ startsList p t) →
      ¬ occursIn p (replaceAll q r s) by
    exact fun s => H s.length s le_rfl
  intro n
  induction n with
  | zero =>
    intro s hs _
    have hnil : s = [] := List.length_eq_zero.mp (Nat.le_zero.mp hs)
    subst hnil
    simp only [replaceAll]
    exact not_occursIn_nil hp
  | succ n ih =>
    intro s hs hH
    match s with
    | [] =>
      simp only [replaceAll]
      exact not_occursIn_nil hp
    | c :: cs =>
      rw [replaceAll]
      by_cases hm : leadsWith q (c :: cs) = true
      · rw [if_pos hm]
        have hs₁len : (cs.drop (q.length - 1)).length ≤ n := by
          simp only [List.length_drop]
          simp only [List.length_cons] at hs
          omega
        have hH₁ : ∀ t, endsList t (cs.drop (q.length - 1)) →
            startsList q t ∨ ¬ startsList p t := fun t ht =>
          hH t (endsList_cons c (endsList_drop ht))
        have IH₁ : ¬ occursIn p (replaceAll q r (cs.drop (q.length - 1))) :=
          ih _ hs₁len hH₁
        rintro ⟨a, b, hab⟩
        rcases Nat.lt_or_ge r.length (a.length + p.length) with hcase1 | hcase2
        · rcases Nat.lt_or_ge a.length r.length with hcase3 | hcase4
          · -- the occurrence straddles the boundary of `r`
            have hj1 : 0 < r.length - a.length := by omega
            have hj2 : r.length - a.length < p.length := by omega
            apply hB (r.length - a.length) hj2 hj1
            refine ⟨a, ?_⟩
            have h2 := congrArg (List.take r.length) hab
            rw [List.take_left] at h2
            rw [List.take_append_of_le_length (by simp; omega)] at h2
            rw [List.take_append_eq_append_take, List.take_of_length_le (by omega)] at h2
            exact h2
          · -- the occurrence lies inside the replaced tail
            apply IH₁
            rw [List.append_assoc] at hab
            have h2 := congrArg (List.take r.length) hab
            rw [List.take_left, List.take_append_of_le_length hcase4] at h2
            have h3 : a = r ++ a.drop r.length := by
              conv_lhs => rw [← List.take_append_drop r.length a, ← h2]
            rw [h3, List.append_assoc] at hab
            have h4 := List.append_cancel_left hab
            exact ⟨a.drop r.length, b, by rw [h4, List.append_assoc]⟩
        · -- the occurrence lies inside `r`
          apply hA
          have h3 := congrArg (List.take (a.length + p.length)) hab
          rw [List.take_append_of_le_length hcase2] at h3
          have h4 : (a ++ p ++ b).take (a.length + p.length) = a ++ p :=
            List.take_left' (by simp)
          rw [h4] at h3
          exact ⟨a, r.drop (a.length + p.length), by
            rw [List.append_assoc, ← List.append_assoc a p, ← h3, List.take_append_drop]⟩
      · rw [if_neg hm]
        have hcs : cs.length ≤ n := by
          simp only [List.length_cons] at hs
          omega
        have hHcs : ∀ t, endsList t cs → startsList q t ∨ ¬ startsList p t :=
          fun t ht => hH t (endsList_cons c ht)
        have IH₁ : ¬ occursIn p (replaceAll q r cs) := ih cs hcs hHcs
        intro hocc
        rcases (occursIn_cons_iff p c _).mp hocc with hstart | hX
        · rcases hH (c :: cs) ⟨[], rfl⟩ with hqs | hnp
          · exact hm ((leadsWith_iff q (c :: cs)).mpr hqs)
          · rcases startsList_cons_elim hstart with h0 | ⟨p', hp', hstart'⟩
            · exact hp h0
            · have hnp' : ¬ startsList p' cs := fun hs' => by
                obtain ⟨t, ht⟩ := hs'
                exact hnp ⟨t, by rw [hp', List.cons_append, ht]⟩
              rcases startsList_replaceAll q r cs p' hstart' with hc | ⟨m, X', hmlt, hst⟩
              · exact hnp' hc
              · have hplen : p.length = p'.length + 1 := by rw [hp']; rfl
                have hwlen : (p'.drop m).length ≤ r.length := by
                  simp only [List.length_drop]
                  omega
                have hwr : startsList (p'.drop m) r := startsList_append_short hst hwlen
                have hdrop : p.drop (m + 1) = p'.drop m := by rw [hp']; rfl
                exact hC (m + 1) (by omega) (by omega) (hdrop ▸ hwr)
        · exact IH₁ hX

/-- After `s.replace(q, r)` with a safe pattern/replacement pair, the pattern
`q` no longer occurs. -/
theorem not_occurs_self (q r : List Char) (hsafe : SafePair q r) (s : List Char) :
    ¬ occursIn q (replaceAll q r s) := by
  obtain ⟨hq, hlen, hA, hB, hC⟩ := hsafe
  apply not_occurs_replaceAll q q r hq hq hlen hA hB hC s
  intro t _
  by_cases h : startsList q t
  · exact Or.inl h
  · exact Or.inr h

/-- Substituting `r` for `q` cannot introduce an occurrence of an absent
pattern `p` when `(p, r)` satisfies the junction conditions. -/
theorem not_occurs_preserved (p q r : List Char) (hq : q ≠ []) (hsafe : SafePair p r)
    (s : List Char) (hs : ¬ occursIn p s) : ¬ occursIn p (replaceAll q r s) := by
  obtain ⟨hp, hlen, hA, hB, hC⟩ := hsafe
  apply not_occurs_replaceAll p q r hp hq hlen hA hB hC s
  intro t ht
  refine Or.inr fun hpt => hs ?_
  obtain ⟨u, hu⟩ := hpt
  obtain ⟨w, hw⟩ := ht
  exact ⟨w, u, by rw [hw, hu, List.append_assoc]⟩

/-! ## Idempotence of the theme patch -/

theorem applyAll_preserves_absence (p : List Char) :
    ∀ (l : List (List Char × List Char)) (xml : List Char),
      (∀ pr ∈ l, SafePair p pr.2 ∧ pr.1 ≠ []) → ¬ occursIn p xml →
      ¬ occursIn p (applyAll l xml)
  | [], _, _, h => h
  | a :: rest, xml, hl, h => by
    have h1 : ¬ occursIn p (replaceAll a.1 a.2 xml) :=
      not_occurs_preserved p a.1 a.2 (hl a (by simp)).2 (hl a (by simp)).1 xml h
    exact applyAll_preserves_absence p rest _
      (fun pr hpr => hl pr (List.mem_cons_of_mem a hpr)) h1

theorem applyAll_absent_all :
    ∀ (l : List (List Char × List Char)) (xml : List Char), SafeList l →
      ∀ pr ∈ l, ¬ occursIn pr.1 (applyAll l xml)
  | [], _, _, pr, h => absurd h (by simp)
  | a :: rest, xml, hsafe, pr, hmem => by
    rcases List.mem_cons.mp hmem with rfl | hmem'
    · have h1 : ¬ occursIn pr.1 (replaceAll pr.1 pr.2 xml) :=
        not_occurs_self pr.1 pr.2 (hsafe pr hmem pr hmem) xml
      exact applyAll_preserves_absence pr.1 rest _
        (fun pr₂ h₂ =>
          ⟨hsafe pr hmem pr₂ (List.mem_cons_of_mem pr h₂),
           (hsafe pr₂ (List.mem_cons_of_mem pr h₂) pr₂ (List.mem_cons_of_mem pr h₂)).1⟩) h1
    · have hsafe' : SafeList rest := fun x hx y hy =>
        hsafe x (List.mem_cons_of_mem a hx) y (List.mem_cons_of_mem a hy)
      exact applyAll_absent_all rest (replaceAll a.1 a.2 xml) hsafe' pr hmem'

theorem applyAll_id :
    ∀ (l : List (List Char × List Char)) (xml : List Char),
      (∀ pr ∈ l, ¬ occursIn pr.1 xml) → applyAll l xml = xml
  | [], _, _ => rfl
  | a :: rest, xml, h => by
    show applyAll rest (replaceAll a.1 a.2 xml) = xml
    rw [replaceAll_of_not_occurs a.1 a.2 xml (h a (by simp))]
    exact applyAll_id rest xml (fun pr hpr => h pr (List.mem_cons_of_mem a hpr))

theorem applyAll_idem (l : List (List Char × List Char)) (hsafe : SafeList l)
    (xml : List Char) : applyAll l (applyAll l xml) = applyAll l xml :=
  applyAll_id l (applyAll l xml) (fun pr hpr => applyAll_absent_all l xml hsafe pr hpr)

theorem update_theme_idem (xml : List Char) :
    update_theme (update_theme xml) = update_theme xml :=
  applyAll_idem colorPairs (by decide) xml

theorem constructControllers_stable :
    ∀ (m : Nat) (s : ThemeState), s.was_theme_updated = true →
      constructControllers m s = s
  | 0, _, _ => rfl
  | m + 1, s, hswt => by
    show constructControllers m (initWorkbookController s) = s
    rw [initWorkbookController, if_pos hswt]
    exact constructControllers_stable m s hswt

theorem constructControllers_patch_runs (n : Nat) (t : List Char) :
    (constructControllers n
      { was_theme_updated := false, theme_xml := t, patch_runs := 0 }).patch_runs ≤ 1 := by
  cases n with
  | zero => exact Nat.zero_le 1
  | succ n =>
    show (constructControllers n (initWorkbookController _)).patch_runs ≤ 1
    rw [show initWorkbookController
        { was_theme_updated := false, theme_xml := t, patch_runs := 0 } =
        { was_theme_updated := true, theme_xml := update_theme t, patch_runs := 1 } from rfl]
    rw [constructControllers_stable n _ rfl]

/-! ## The workbook model (`WorkbookController`) -/

/-- A cell value handed to `create_workbook`: a string, or a
`datetime.datetime` (abstracted to its timestamp). -/
inductive CellVal where
  | str (s : String)
  | dt (t : Nat)
  deriving DecidableEq, Repr

/-- A worksheet cell with its assigned number format and data type. -/
structure Cell where
  value : CellVal
  number_format : String
  data_type : String
  deriving DecidableEq, Repr

/-- `openpyxl.styles.numbers.FORMAT_TEXT`. -/
def FORMAT_TEXT : String := "@"

/-- `WorkbookController.ISO_8601_NUMBER_FORMAT`. -/
def ISO_8601_NUMBER_FORMAT : String := "yyyy-mm-ddThh:MM:ss"

/-- The cell-writing body of the data loop: every cell gets the text format
and string type unless its value is a `datetime`. -/
def mkCell (v : CellVal) : Cell :=
  match v with
  | .dt t => { value := .dt t, number_format := ISO_8601_NUMBER_FORMAT, data_type := "d" }
  | .str s => { value := .str s, number_format := FORMAT_TEXT, data_type := "s" }

/-- A cell created by `sheet.append`: default format, with openpyxl's guessed
data type (strings starting with `=` become formulas). -/
def appendCell (s : String) : Cell :=
  { value := .str s, number_format := "General",
    data_type := if leadsWith "=".data s.data then "f" else "s" }

/-- Bijective base-26 column letters, accumulator-free digit recursion with
explicit fuel so that the function evaluates by kernel reduction
(`openpyxl.utils.get_column_letter`). -/
def colLettersAux : Nat → Nat → List Char
  | _, 0 => []
  | 0, _ + 1 => []
  | fuel + 1, n + 1 => colLettersAux fuel (n / 26) ++ [Char.ofNat (65 + n % 26)]

/-- `openpyxl.utils.get_column_letter` (1 ↦ "A", …, 26 ↦ "Z", 27 ↦ "AA", …). -/
def get_column_letter (n : Nat) : String := ⟨colLettersAux n n⟩

/-- The aggregate formula written into the last cell of the total row:
`=SUBTOTAL(103,{table_name}[{last title}])`. -/
def subtotalFormula (table_name title : String) : String :=
  "=SUBTOTAL(103," ++ table_name ++ "[" ++ title ++ "])"

/-- The values of the total row: `[""] * len(keys)` with `"Total"` written at
index 0 and the SUBTOTAL formula written at index -1 (the last index). -/
def totalRowOf (k : Nat) (table_name lastTitle : String) : List String :=
  ((List.replicate k "").set 0 "Total").set (k - 1) (subtotalFormula table_name lastTitle)

/-- `sheet.max_column`: the largest cell count over all rows. -/
def listMax (l : List Nat) : Nat := l.foldr Nat.max 0

/-- The synthesized workbook state observable after
`WorkbookController.create_workbook`. -/
structure Workbook where
  workbook_title : String
  sheet_title : String
  table_name : String
  grid : List (List Cell)
  totalRowValues : List String
  tableRef : String
  autoFilterRef : String
  activeCell : String
  deriving DecidableEq, Repr

/-- `WorkbookController.create_workbook`.  The header row is the `key_title`
dict itself; data rows look each key up in their record (empty string when
absent); the total row is appended after the data; the table is bound to
`A1:{max_column}{max_row}` and the autofilter to `A1:{max_column}{max_row-1}`.
Python raises `IndexError` on `total_row[0]` when the schema is empty, which
is modelled by `none`. -/
def create_workbook (key_title : List (String × String))
    (data : List (List (String × CellVal)))
    (workbook_title : String := "Workbook") (sheet_title : String := "Sheet")
    (table_name : String := "Table") : Option Workbook :=
  if key_title.isEmpty then none
  else
    let keys := key_title.map Prod.fst
    let titles := key_title.map Prod.snd
    let headerRec : List (String × CellVal) := key_title.map (fun p => (p.1, .str p.2))
    let rows := headerRec :: data
    let mkRow : List (String × CellVal) → List Cell := fun row =>
      keys.map (fun k => mkCell ((List.lookup k row).getD (.str "")))
    let total_row := totalRowOf keys.length table_name (titles.getLastD "")
    let grid := rows.map mkRow ++ [total_row.map appendCell]
    let max_column := listMax (grid.map List.length)
    let max_row := grid.length
    some {
      workbook_title := workbook_title
      sheet_title := sheet_title
      table_name := table_name
      grid := grid
      totalRowValues := total_row
      tableRef := "A1:" ++ get_column_letter max_column ++ Nat.repr max_row
      autoFilterRef := "A1:" ++ get_column_letter max_column ++ Nat.repr (max_row - 1)
      activeCell := "A" ++ Nat.repr (max_row + 1)
    }

/-! ## Container repair (`WorkbookController.fix_workbook_mime_type`) -/

/-- `WorkbookController.FIRST_NAMES`. -/
def FIRST_NAMES : List String := ["[Content_Types].xml", "xl/workbook.xml", "xl/styles.xml"]

/-- `WorkbookController.fix_workbook_mime_type`.  The input archive is its
entry list (name, bytes) in stored order; `namelist` is the name sequence,
`open` is association-list lookup, raising `KeyError` (modelled as `none`,
skipped) for a missing name. -/
def fix_workbook_mime_type (entries : List (String × List Nat)) : List (String × List Nat) :=
  let names := entries.map Prod.fst
  let remaining_names := names.filter (fun n => !(FIRST_NAMES.contains n))
  let ordered_names := FIRST_NAMES ++ remaining_names
  ordered_names.filterMap (fun n => (List.lookup n entries).map (fun b => (n, b)))

/-! ## Lemmas about records and extraction -/

theorem hasKey_iff (d : Rec) (k : String) : hasKey d k = true ↔ k ∈ keysOf d := by
  simp only [hasKey, List.any_eq_true, beq_iff_eq, keysOf, List.mem_map]

theorem keysOf_dictInsert (d : Rec) (k v : String) :
    keysOf (dictInsert d k v) = if hasKey d k then keysOf d else keysOf d ++ [k] := by
  unfold dictInsert
  split
  · simp only [keysOf, List.map_map]
    refine List.map_congr_left fun e _ => ?_
    by_cases h : e.1 = k <;> simp [h]
  · simp [keysOf]

theorem mem_keysOf_dictInsert {d : Rec} {k v x : String}
    (h : x ∈ keysOf (dictInsert d k v)) : x ∈ keysOf d ∨ x = k := by
  rw [keysOf_dictInsert] at h
  rcases hk : hasKey d k with _ | _
  · rw [hk] at h
    simp only [Bool.false_eq_true, if_false, List.mem_append, List.mem_singleton] at h
    exact h
  · rw [hk] at h
    simp only [if_true] at h
    exact Or.inl h

theorem mergeItems_keys_sub :
    ∀ (items base : Rec) (k : String), k ∈ keysOf (mergeItems base items) →
      k ∈ keysOf base ∨ k ∈ keysOf items
  | [], _, _, h => Or.inl h
  | e :: rest, base, k, h => by
    rcases mergeItems_keys_sub rest (dictInsert base e.1 e.2) k h with h1 | h1
    · rcases mem_keysOf_dictInsert h1 with h2 | rfl
      · exact Or.inl h2
      · exact Or.inr (by simp [keysOf])
    · exact Or.inr (by simp [keysOf]; right; simpa [keysOf] using h1)

theorem add_missing_keys_superset :
    ∀ (ts : List String) (row : Rec) (k : String), k ∈ keysOf row →
      k ∈ keysOf (add_missing_keys ts row)
  | [], _, _, h => h
  | t :: ts, row, k, h => by
    rw [add_missing_keys]
    apply add_missing_keys_superset ts _ k
    split
    · exact h
    · simp [keysOf] at h ⊢
      exact Or.inl h

theorem add_missing_keys_titles :
    ∀ (ts : List String) (row : Rec) (t : String), t ∈ ts →
      t ∈ keysOf (add_missing_keys ts row)
  | [], _, _, h => absurd h (by simp)
  | t' :: ts, row, t, h => by
    rcases List.mem_cons.mp h with rfl | h1
    · rw [add_missing_keys]
      apply add_missing_keys_superset
      split
      · exact (hasKey_iff row t).mp (by assumption)
      · simp [keysOf]
    · rw [add_missing_keys]
      exact add_missing_keys_titles ts _ t h1

theorem add_missing_keys_sub :
    ∀ (ts : List String) (row : Rec) (k : String),
      k ∈ keysOf (add_missing_keys ts row) → k ∈ keysOf row ∨ k ∈ ts
  | [], _, _, h => Or.inl h
  | t :: ts, row, k, h => by
    rw [add_missing_keys] at h
    rcases add_missing_keys_sub ts _ k h with h1 | h1
    · revert h1
      split
      · exact fun h1 => Or.inl h1
      · intro h1
        simp only [keysOf, List.map_append, List.mem_append] at h1
        rcases h1 with h2 | h2
        · exact Or.inl h2
        · simp at h2
          exact Or.inr (by simp [h2])
    · exact Or.inr (List.mem_cons_of_mem t h1)

theorem parseTableGo_cons (kt : List (String × String)) (row : List String)
    (rest : List (List String)) (acc : Rec) :
    parseTableGo kt (row :: rest) acc =
      match rowEntry kt row with
      | none => parseTableGo kt rest acc
      | some e => parseTableGo kt rest (dictInsert acc e.1 e.2) := by
  rcases row with _ | ⟨c0, _ | ⟨c1, rest2⟩⟩
  · rfl
  · rfl
  · by_cases h : (stripColonsRight (pyStrip c0)).length ≤ 0 ∧ (pyStrip c1).length ≤ 0
    · simp only [parseTableGo, rowEntry]
      rw [if_pos h, if_pos h]
    · simp only [parseTableGo, rowEntry]
      rw [if_neg h, if_neg h]

theorem parseTableGo_eq (kt : List (String × String)) :
    ∀ (rows : List (List String)) (acc : Rec),
      parseTableGo kt rows acc = mergeItems acc (rows.filterMap (rowEntry kt))
  | [], _ => rfl
  | row :: rest, acc => by
    rw [parseTableGo_cons]
    rcases hre : rowEntry kt row with _ | e
    · simp only [List.filterMap_cons, hre]
      exact parseTableGo_eq kt rest acc
    · simp only [List.filterMap_cons, hre]
      exact parseTableGo_eq kt rest (dictInsert acc e.1 e.2)

theorem parse_table_eq (kt : List (String × String)) (rows : List (List String)) :
    parse_table kt rows = mergeItems [] (rows.filterMap (rowEntry kt)) :=
  parseTableGo_eq kt rows []

theorem parse_table_keys_sub (kt : List (String × String)) (rows : List (List String))
    (k : String) (h : k ∈ keysOf (parse_table kt rows)) :
    ∃ row ∈ rows, ∃ e, rowEntry kt row = some e ∧ k = e.1 := by
  rw [parse_table_eq] at h
  rcases mergeItems_keys_sub _ [] k h with h1 | h1
  · simp [keysOf] at h1
  · simp only [keysOf, List.mem_map] at h1
    obtain ⟨e, he, rfl⟩ := h1
    obtain ⟨row, hrow, hre⟩ := List.mem_filterMap.mp he
    exact ⟨row, hrow, e, hre, rfl⟩

theorem mergeItems_fresh :
    ∀ (items base : Rec), (keysOf items).Nodup →
      (∀ k ∈ keysOf items, k ∉ keysOf base) → mergeItems base items = base ++ items
  | [], base, _, _ => by simp [mergeItems]
  | e :: rest, base, hnd, hfresh => by
    have hkeys : keysOf (e :: rest) = e.1 :: keysOf rest := rfl
    rw [hkeys] at hnd hfresh
    have hnotin : ¬ hasKey base e.1 = true := fun hb =>
      hfresh e.1 (by simp) ((hasKey_iff base e.1).mp hb)
    have hins : dictInsert base e.1 e.2 = base ++ [(e.1, e.2)] := by
      rw [dictInsert, if_neg hnotin]
    have hstep : ∀ k ∈ keysOf rest, k ∉ keysOf (base ++ [(e.1, e.2)]) := by
      intro k hk hkmem
      have hkeys2 : keysOf (base ++ [(e.1, e.2)]) = keysOf base ++ [e.1] := by
        simp [keysOf]
      rw [hkeys2, List.mem_append, List.mem_singleton] at hkmem
      rcases hkmem with hkb | rfl
      · exact hfresh k (List.mem_cons_of_mem _ hk) hkb
      · exact (List.nodup_cons.mp hnd).1 hk
    show mergeItems (dictInsert base e.1 e.2) rest = base ++ e :: rest
    rw [hins, mergeItems_fresh rest (base ++ [(e.1, e.2)]) (List.Nodup.of_cons hnd) hstep]
    simp

theorem pairUp_fst_mem : ∀ (l : List α) (pr : α × Option α), pr ∈ pairUp l → pr.1 ∈ l
  | [], _, h => absurd h (by simp [pairUp])
  | [a], pr, h => by
    simp only [pairUp, List.mem_singleton] at h
    subst h
    simp
  | a :: b :: rest, pr, h => by
    rcases List.mem_cons.mp h with rfl | h1
    · simp
    · have := pairUp_fst_mem rest pr h1
      simp [this]

theorem pairUp_length : ∀ l : List α, (pairUp l).length = (l.length + 1) / 2
  | [] => by simp [pairUp]
  | [_] => by simp [pairUp]
  | _ :: _ :: rest => by
    simp only [pairUp, List.length_cons, pairUp_length rest]
    omega

theorem pairUp_all_some :
    ∀ l : List α, l.length % 2 = 0 → ∀ pr ∈ pairUp l, pr.2 ≠ none
  | [], _, _, h => absurd h (by simp [pairUp])
  | [_], hl, _, _ => by simp at hl
  | a :: b :: rest, hl, pr, h => by
    rcases List.mem_cons.mp h with rfl | h1
    · simp
    · refine pairUp_all_some rest ?_ pr h1
      simp only [List.length_cons] at hl
      omega

theorem parseLoop_ok_length (kt : List (String × String)) (hs : List String) :
    ∀ (pairs : List (HtmlNode × Option HtmlNode)) (i : Nat) (items : List Rec),
      parseLoop kt hs pairs i = .ok items → items.length = pairs.length
  | [], _, items, h => by
    simp only [parseLoop] at h
    cases h
    rfl
  | (tbl, nts) :: rest, i, items, h => by
    rw [parseLoop] at h
    split at h
    · cases h
    · split at h
      · cases h
      · split at h
        · rename_i items' hrec
          cases h
          simp [parseLoop_ok_length kt hs rest (i + 1) items' hrec]
        · cases h

theorem parseLoop_titles (kt : List (String × String)) (hs : List String) :
    ∀ (pairs : List (HtmlNode × Option HtmlNode)) (i : Nat) (items : List Rec),
      parseLoop kt hs pairs i = .ok items →
      ∀ r ∈ items, ∀ t ∈ titlesOf kt, t ∈ keysOf r
  | [], _, items, h => by
    simp only [parseLoop] at h
    cases h
    intro r hr
    simp at hr
  | (tbl, nts) :: rest, i, items, h => by
    rw [parseLoop] at h
    split at h
    · cases h
    · split at h
      · cases h
      · split at h
        · rename_i items' hrec
          cases h
          intro r hr t ht
          rcases List.mem_cons.mp hr with rfl | hr'
          · exact add_missing_keys_titles (titlesOf kt) _ _ ht
          · exact parseLoop_titles kt hs rest (i + 1) items' hrec r hr' t ht
        · cases h

theorem parseLoop_keys (kt : List (String × String)) (hs : List String) :
    ∀ (pairs : List (HtmlNode × Option HtmlNode)) (i : Nat) (items : List Rec),
      parseLoop kt hs pairs i = .ok items →
      ∀ r ∈ items, ∀ k ∈ keysOf r,
        k = "State" ∨ k = "Description" ∨ k ∈ titlesOf kt ∨
          ∃ pr ∈ pairs, ∃ row ∈ pr.1.rows, ∃ e, rowEntry kt row = some e ∧ k = e.1
  | [], _, items, h => by
    simp only [parseLoop] at h
    cases h
    intro r hr
    simp at hr
  | (tbl, nts) :: rest, i, items, h => by
    rw [parseLoop] at h
    split at h
    · cases h
    · split at h
      · cases h
      · rename_i n
        split at h
        · rename_i items' hrec
          cases h
          intro r hr k hk
          rcases List.mem_cons.mp hr with rfl | hr'
          · rcases add_missing_keys_sub _ _ k hk with h1 | h1
            · rcases mem_keysOf_dictInsert h1 with h2 | rfl
              · rcases mergeItems_keys_sub _ _ k h2 with h3 | h3
                · left
                  simpa [keysOf, dictInsert, hasKey] using h3
                · obtain ⟨row, hrow, e, hre, rfl⟩ := parse_table_keys_sub kt tbl.rows k h3
                  exact Or.inr (Or.inr (Or.inr ⟨(tbl, some n), by simp, row, hrow, e, hre, rfl⟩))
              · exact Or.inr (Or.inl rfl)
            · exact Or.inr (Or.inr (Or.inl h1))
          · rcases parseLoop_keys kt hs rest (i + 1) items' hrec r hr' k hk with
              h1 | h1 | h1 | ⟨pr, hpr, rest'⟩
            · exact Or.inl h1
            · exact Or.inr (Or.inl h1)
            · exact Or.inr (Or.inr (Or.inl h1))
            · exact Or.inr (Or.inr (Or.inr ⟨pr, List.mem_cons_of_mem _ hpr, rest'⟩))
        · cases h

theorem get?_some_of_lt : ∀ (l : List String) (i : Nat), i < l.length →
    ∃ v, l.get? i = some v
  | [], _, h => absurd h (by simp)
  | a :: _, 0, _ => ⟨a, rfl⟩
  | _ :: l, i + 1, h => get?_some_of_lt l i (by simpa using h)

theorem parseLoop_ok (kt : List (String × String)) (hs : List String) :
    ∀ (pairs : List (HtmlNode × Option HtmlNode)) (i : Nat),
      (∀ pr ∈ pairs, pr.2 ≠ none) → i + pairs.length ≤ hs.length →
      ∃ items, parseLoop kt hs pairs i = .ok items ∧ items.length = pairs.length
  | [], _, _, _ => ⟨[], rfl, rfl⟩
  | (tbl, nts) :: rest, i, hsome, hlen => by
    have hi : i < hs.length := by
      simp only [List.length_cons] at hlen
      omega
    obtain ⟨hd, hget⟩ := get?_some_of_lt hs i hi
    rcases nts with _ | n
    · exact absurd rfl (hsome (tbl, none) (by simp))
    · obtain ⟨items, hrec, hlen'⟩ := parseLoop_ok kt hs rest (i + 1)
        (fun pr hpr => hsome pr (List.mem_cons_of_mem _ hpr))
        (by simp only [List.length_cons] at hlen; omega)
      refine ⟨add_missing_keys (titlesOf kt)
        (dictInsert (mergeItems (dictInsert [] "State" (pyStrip hd))
          (parse_table kt tbl.rows)) "Description" (cleanNotes n.text)) :: items,
        ?_, by simp [hlen']⟩
      simp only [parseLoop, hget, hrec]

/-! ## Claims C1 to C5 -/

/-- C1 counterexample: a markup with one heading node and no table/notes
content nodes makes `parse` return an empty sequence although one heading was
found, so the output length does not equal the number of heading nodes. -/
theorem c1_counterexample :
    parse KEY_TITLE ["Alabama"] [] = Except.ok [] ∧
      (["Alabama"] : List String).length = 1 :=
  ⟨rfl, rfl⟩

/-- C1 (amended): when extraction returns, the output length equals the number
of (table, notes) pairs formed from the content nodes (which can be smaller
than the number of heading nodes), and every returned record contains every
schema title as a key. -/
theorem c1_theorem (kt : List (String × String)) (headings : List String)
    (nodes : List HtmlNode) (items : List Rec)
    (h : parse kt headings nodes = .ok items) :
    items.length = (pairUp nodes).length ∧
      ∀ r ∈ items, ∀ t ∈ titlesOf kt, t ∈ keysOf r :=
  ⟨parseLoop_ok_length kt headings (pairUp nodes) 0 items h,
   parseLoop_titles kt headings (pairUp nodes) 0 items h⟩

/-- C1 witness: the amended theorem evaluated on a one-pair markup. -/
theorem c1_witness :
    ([[("State", "Alabama"), ("Description", ""), ("Type", ""), ("Bidding process", ""),
       ("Frequency", ""), ("Interest rate / penalty", ""), ("Redemption period", ""),
       ("Online auction", ""), ("Over the counter", ""), ("Statute", ""),
       ("Notes", "")]] : List Rec).length = (pairUp [(⟨[], ""⟩ : HtmlNode), ⟨[], ""⟩]).length ∧
      ∀ r ∈ ([[("State", "Alabama"), ("Description", ""), ("Type", ""), ("Bidding process", ""),
       ("Frequency", ""), ("Interest rate / penalty", ""), ("Redemption period", ""),
       ("Online auction", ""), ("Over the counter", ""), ("Statute", ""),
       ("Notes", "")]] : List Rec), ∀ t ∈ titlesOf KEY_TITLE, t ∈ keysOf r :=
  c1_theorem KEY_TITLE ["Alabama"] [⟨[], ""⟩, ⟨[], ""⟩] _ rfl

/-- C2 counterexample: a table row with the unmapped label "Bogus" passes
through into the record's key sequence, so a record can contain a key outside
the schema titles (and the keys are not in schema order: "Description" sits
third, before the backfilled titles). -/
theorem c2_counterexample :
    (parse KEY_TITLE ["X"] [⟨[["Bogus", "v"]], "t"⟩, ⟨[], ""⟩]).map
        (fun items => items.map keysOf) =
      Except.ok [["State", "Bogus", "Description", "Type", "Bidding process", "Frequency",
        "Interest rate / penalty", "Redemption period", "Online auction", "Over the counter",
        "Statute", "Notes"]] ∧
      "Bogus" ∉ titlesOf KEY_TITLE :=
  ⟨rfl, by decide⟩

/-- C2 (amended): every record of a result set contains every schema title as
a key; any further key is the heading key "State", the notes key
"Description", or the schema-mapped key of some table row of some content
node, so the key sets of two records may differ, and keys follow first-seen
insertion order rather than schema order. -/
theorem c2_theorem (kt : List (String × String)) (headings : List String)
    (nodes : List HtmlNode) (items : List Rec)
    (h : parse kt headings nodes = .ok items) :
    ∀ r ∈ items, (∀ t ∈ titlesOf kt, t ∈ keysOf r) ∧
      ∀ k ∈ keysOf r, k = "State" ∨ k = "Description" ∨ k ∈ titlesOf kt ∨
        ∃ nd ∈ nodes, ∃ row ∈ nd.rows, ∃ e, rowEntry kt row = some e ∧ k = e.1 := by
  intro r hr
  refine ⟨fun t ht => parseLoop_titles kt headings (pairUp nodes) 0 items h r hr t ht, ?_⟩
  intro k hk
  rcases parseLoop_keys kt headings (pairUp nodes) 0 items h r hr k hk with
    h1 | h1 | h1 | ⟨pr, hpr, row, hrow, e, hre, hke⟩
  · exact Or.inl h1
  · exact Or.inr (Or.inl h1)
  · exact Or.inr (Or.inr (Or.inl h1))
  · exact Or.inr (Or.inr (Or.inr ⟨pr.1, pairUp_fst_mem nodes pr hpr, row, hrow, e, hre, hke⟩))

/-- C2 witness: the amended theorem evaluated on a one-pair markup, at the
single record it extracts. -/
theorem c2_witness :
    (∀ t ∈ titlesOf KEY_TITLE, t ∈ keysOf
      ([("State", "Alabama"), ("Description", ""), ("Type", ""), ("Bidding process", ""),
        ("Frequency", ""), ("Interest rate / penalty", ""), ("Redemption period", ""),
        ("Online auction", ""), ("Over the counter", ""), ("Statute", ""),
        ("Notes", "")] : Rec)) ∧
      ∀ k ∈ keysOf ([("State", "Alabama"), ("Description", ""), ("Type", ""),
        ("Bidding process", ""), ("Frequency", ""), ("Interest rate / penalty", ""),
        ("Redemption period", ""), ("Online auction", ""), ("Over the counter", ""),
        ("Statute", ""), ("Notes", "")] : Rec),
        k = "State" ∨ k = "Description" ∨ k ∈ titlesOf KEY_TITLE ∨
        ∃ nd ∈ [(⟨[], ""⟩ : HtmlNode), ⟨[], ""⟩], ∃ row ∈ nd.rows, ∃ e,
          rowEntry KEY_TITLE row = some e ∧ k = e.1 :=
  c2_theorem KEY_TITLE ["Alabama"] [⟨[], ""⟩, ⟨[], ""⟩]
    [[("State", "Alabama"), ("Description", ""), ("Type", ""), ("Bidding process", ""),
      ("Frequency", ""), ("Interest rate / penalty", ""), ("Redemption period", ""),
      ("Online auction", ""), ("Over the counter", ""), ("Statute", ""),
      ("Notes", "")]] rfl
    [("State", "Alabama"), ("Description", ""), ("Type", ""), ("Bidding process", ""),
     ("Frequency", ""), ("Interest rate / penalty", ""), ("Redemption period", ""),
     ("Online auction", ""), ("Over the counter", ""), ("Statute", ""),
     ("Notes", "")] (by simp)

/-- C3: with an odd number of selected table/notes content nodes (here one
node and one heading), the trailing node is paired with `None` and
`notes.get_text()` raises `AttributeError`; extraction does crash, contrary
to the specified behavior. -/
theorem c3_theorem :
    parse KEY_TITLE ["X"] [⟨[], ""⟩] = Except.error PyErr.attributeError :=
  rfl

/-- C4 counterexample: markup lacking the heading markers (no heading nodes)
but containing two table/notes content nodes makes `parse` raise `IndexError`
instead of returning an empty result sequence. -/
theorem c4_counterexample :
    parse KEY_TITLE [] [⟨[], ""⟩, ⟨[], ""⟩] = Except.error PyErr.indexError :=
  rfl

/-- C4 (amended): extraction degrades without raising only on the
table/notes side: if the content-node count is even and the pair count does
not exceed the heading count, `parse` returns (an empty or shortened) result
of exactly half as many records; too few headings instead raise an index
error and an odd content-node count raises an attribute error. -/
theorem c4_theorem (kt : List (String × String)) (headings : List String)
    (nodes : List HtmlNode) (h1 : nodes.length % 2 = 0)
    (h2 : nodes.length / 2 ≤ headings.length) :
    ∃ items, parse kt headings nodes = .ok items ∧
      items.length = nodes.length / 2 := by
  obtain ⟨items, hok, hlen⟩ := parseLoop_ok kt headings (pairUp nodes) 0
    (pairUp_all_some nodes h1)
    (by rw [Nat.zero_add, pairUp_length]; omega)
  exact ⟨items, hok, by rw [hlen, pairUp_length]; omega⟩

/-- C4 witness: the amended theorem evaluated on a two-node, one-heading
markup. -/
theorem c4_witness :
    ∃ items, parse KEY_TITLE ["A"] [⟨[], ""⟩, ⟨[], ""⟩] = Except.ok items ∧
      items.length = 1 :=
  c4_theorem KEY_TITLE ["A"] [⟨[], ""⟩, ⟨[], ""⟩] rfl (by decide)

/-- C5: `parse_table` keeps exactly the rows with at least two cells whose
trimmed key (with trailing colons stripped) and trimmed value are not both
empty; each kept row contributes its schema-mapped key and its value (when
the mapped keys are distinct, the result is precisely those entries in row
order). -/
theorem c5_theorem (kt : List (String × String)) (rows : List (List String))
    (h : ((rows.filterMap (rowEntry kt)).map Prod.fst).Nodup) :
    parse_table kt rows = rows.filterMap (rowEntry kt) := by
  rw [parse_table_eq, mergeItems_fresh _ [] h (by simp [keysOf])]
  simp

/-- C5 witness: a one-cell row and an all-empty two-cell row are skipped and a
"Frequency"/"Annual" row survives with its mapped title. -/
theorem c5_witness :
    parse_table KEY_TITLE [["solo"], ["", "  "], [" Frequency: ", " Annual "]] =
      [("Frequency", "Annual")] := by
  rw [c5_theorem KEY_TITLE [["solo"], ["", "  "], [" Frequency: ", " Annual "]] (by decide)]
  decide

/-! ## Claim C6 -/

/-- C6: the theme patch is idempotent — applying `update_theme` twice to any
theme template text (in particular the initial one) gives the same final
theme state as applying it once — and the process-wide `was_theme_updated`
flag makes the patch body run at most once per process no matter how many
`WorkbookController` instances are constructed. -/
theorem c6_theorem :
    (∀ xml : List Char, update_theme (update_theme xml) = update_theme xml) ∧
      (∀ (n : Nat) (t : List Char),
        (constructControllers n
          { was_theme_updated := false, theme_xml := t,
            patch_runs := 0 }).patch_runs ≤ 1) :=
  ⟨update_theme_idem, constructControllers_patch_runs⟩

/-! ## Workbook lemmas -/

theorem listMax_const (K : Nat) :
    ∀ l : List Nat, (∀ x ∈ l, x = K) → l ≠ [] → listMax l = K
  | [], _, hne => absurd rfl hne
  | [x], hall, _ => by
    simp only [listMax, List.foldr]
    rw [hall x (by simp)]
    exact Nat.max_eq_left (Nat.zero_le K)
  | x :: y :: rest, hall, _ => by
    have h1 := listMax_const K (y :: rest) (fun z hz => hall z (List.mem_cons_of_mem x hz))
      (by simp)
    show Nat.max x (listMax (y :: rest)) = K
    rw [h1, hall x (by simp)]
    exact Nat.max_self K

theorem length_totalRowOf (k : Nat) (tn t : String) : (totalRowOf k tn t).length = k := by
  simp [totalRowOf]

theorem grid_max (kt : List (String × String)) (data : List (List (String × CellVal)))
    (tn lastT : String) :
    listMax (List.map List.length
      (List.map (fun row => List.map (fun k => mkCell ((List.lookup k row).getD (CellVal.str "")))
          (List.map Prod.fst kt)) (List.map (fun p => (p.1, CellVal.str p.2)) kt :: data) ++
        [List.map appendCell (totalRowOf (List.map Prod.fst kt).length tn lastT)])) =
      kt.length := by
  apply listMax_const
  · intro x hx
    obtain ⟨row, hrow, rfl⟩ := List.mem_map.mp hx
    rcases List.mem_append.mp hrow with hA | hB
    · obtain ⟨r0, _, rfl⟩ := List.mem_map.mp hA
      simp
    · rw [List.mem_singleton.mp hB]
      simp [length_totalRowOf]
  · simp

theorem create_workbook_some (kt : List (String × String))
    (data : List (List (String × CellVal))) (wt st tn : String) (h : 1 ≤ kt.length) :
    ∃ wb, create_workbook kt data wt st tn = some wb ∧
      wb.totalRowValues = totalRowOf kt.length tn ((kt.map Prod.snd).getLastD "") ∧
      wb.tableRef = "A1:" ++ get_column_letter kt.length ++ Nat.repr (data.length + 2) ∧
      wb.autoFilterRef = "A1:" ++ get_column_letter kt.length ++ Nat.repr (data.length + 1) := by
  have hne : ¬ kt.isEmpty = true := by
    cases kt
    · simp at h
    · simp
  rw [create_workbook, if_neg hne]
  refine ⟨_, rfl, ?_, ?_, ?_⟩
  · simp
  · show "A1:" ++ get_column_letter (listMax _) ++ Nat.repr (List.length _) = _
    rw [grid_max]
    have hrow : (List.map (fun row =>
          List.map (fun k => mkCell ((List.lookup k row).getD (CellVal.str "")))
            (List.map Prod.fst kt)) (List.map (fun p => (p.1, CellVal.str p.2)) kt :: data) ++
        [List.map appendCell (totalRowOf (List.map Prod.fst kt).length tn
          ((List.map Prod.snd kt).getLastD ""))]).length = data.length + 2 := by
      simp
    rw [hrow]
  · show "A1:" ++ get_column_letter (listMax _) ++ Nat.repr (List.length _ - 1) = _
    rw [grid_max]
    have hrow : (List.map (fun row =>
          List.map (fun k => mkCell ((List.lookup k row).getD (CellVal.str "")))
            (List.map Prod.fst kt)) (List.map (fun p => (p.1, CellVal.str p.2)) kt :: data) ++
        [List.map appendCell (totalRowOf (List.map Prod.fst kt).length tn
          ((List.map Prod.snd kt).getLastD ""))]).length = data.length + 2 := by
      simp
    rw [hrow]
    rfl

/-! ## Claims C7, C8, C10 -/

/-- C7: for a schema of K ≥ 1 titles and N records, the named table is bound
to `A1:{col K}{N+2}` (header, N data rows, aggregate row) and the autofilter
to `A1:{col K}{N+1}` (aggregate row excluded). -/
theorem c7_theorem (kt : List (String × String)) (data : List (List (String × CellVal)))
    (wt st tn : String) (h : 1 ≤ kt.length) :
    ∃ wb, create_workbook kt data wt st tn = some wb ∧
      wb.tableRef = "A1:" ++ get_column_letter kt.length ++ Nat.repr (data.length + 2) ∧
      wb.autoFilterRef = "A1:" ++ get_column_letter kt.length ++ Nat.repr (data.length + 1) := by
  obtain ⟨wb, hwb, _, h2, h3⟩ := create_workbook_some kt data wt st tn h
  exact ⟨wb, hwb, h2, h3⟩

/-- C7 witness: 3 records and 5 schema columns give table region A1:E5 and
autofilter region A1:E4. -/
theorem c7_witness :
    ∃ wb, create_workbook [("A", "A"), ("B", "B"), ("C", "C"), ("D", "D"), ("E", "E")]
        [[], [], []] "W" "S" "T" = some wb ∧
      wb.tableRef = "A1:E5" ∧ wb.autoFilterRef = "A1:E4" := by
  obtain ⟨wb, hwb, h2, h3⟩ := c7_theorem
    [("A", "A"), ("B", "B"), ("C", "C"), ("D", "D"), ("E", "E")] [[], [], []]
    "W" "S" "T" (by decide)
  refine ⟨wb, hwb, ?_, ?_⟩
  · rw [h2]
    rfl
  · rw [h3]
    rfl

theorem set_replicate_last :
    ∀ (m : Nat) (x y : String), (List.replicate (m + 1) x).set m y = List.replicate m x ++ [y]
  | 0, _, _ => rfl
  | m + 1, x, y => by
    show (x :: List.replicate (m + 1) x).set (m + 1) y = x :: (List.replicate m x ++ [y])
    rw [List.set_cons_succ, set_replicate_last m x y]

theorem totalRowOf_eq (k : Nat) (tn t : String) (h : 2 ≤ k) :
    totalRowOf k tn t = "Total" :: List.replicate (k - 2) "" ++ [subtotalFormula tn t] := by
  obtain ⟨m, rfl⟩ : ∃ m, k = m + 2 := ⟨k - 2, by omega⟩
  show ((List.replicate (m + 2) "").set 0 "Total").set (m + 2 - 1) (subtotalFormula tn t) = _
  rw [show List.replicate (m + 2) "" = "" :: List.replicate (m + 1) "" from rfl,
    show (("" : String) :: List.replicate (m + 1) "").set 0 "Total" =
      "Total" :: List.replicate (m + 1) "" from rfl,
    show m + 2 - 1 = m + 1 from rfl, List.set_cons_succ, set_replicate_last,
    show m + 2 - 2 = m from rfl]
  rfl

/-- C8 counterexample: with a one-title schema the aggregate row's only cell
holds the SUBTOTAL formula, not the "Total" label, because index 0 and
index -1 denote the same cell and the formula is assigned last. -/
theorem c8_counterexample :
    (create_workbook [("T", "T")] [] "W" "S" "Tbl").map (fun wb => wb.totalRowValues) =
      some ["=SUBTOTAL(103,Tbl[T])"] ∧ ("=SUBTOTAL(103,Tbl[T])" : String) ≠ "Total" :=
  ⟨rfl, by decide⟩

/-- C8 (amended): for every schema with at least two titles, the aggregate row
has "Total" in its first cell, the SUBTOTAL(103, table[last title]) formula in
its last cell, and empty strings in every cell in between. -/
theorem c8_theorem (kt : List (String × String)) (data : List (List (String × CellVal)))
    (wt st tn : String) (h : 2 ≤ kt.length) :
    ∃ wb, create_workbook kt data wt st tn = some wb ∧
      wb.totalRowValues = "Total" :: List.replicate (kt.length - 2) "" ++
        [subtotalFormula tn ((kt.map Prod.snd).getLastD "")] := by
  obtain ⟨wb, hwb, h1, _, _⟩ := create_workbook_some kt data wt st tn (by omega)
  exact ⟨wb, hwb, by rw [h1, totalRowOf_eq _ _ _ h]⟩

/-- C8 witness: the amended aggregate row for 5 columns and 3 records. -/
theorem c8_witness :
    ∃ wb, create_workbook [("A", "A"), ("B", "B"), ("C", "C"), ("D", "D"), ("E", "E")]
        [[], [], []] "W" "S" "T" = some wb ∧
      wb.totalRowValues = ["Total", "", "", "", "=SUBTOTAL(103,T[E])"] := by
  obtain ⟨wb, hwb, h1⟩ := c8_theorem
    [("A", "A"), ("B", "B"), ("C", "C"), ("D", "D"), ("E", "E")] [[], [], []]
    "W" "S" "T" (by decide)
  refine ⟨wb, hwb, ?_⟩
  rw [h1]
  rfl

theorem subtotalFormula_ne_total (tn t : String) : subtotalFormula tn t ≠ "Total" := by
  intro hcontra
  have hlen := congrArg String.length hcontra
  rw [subtotalFormula, String.length_append, String.length_append, String.length_append,
    String.length_append] at hlen
  have e1 : ("=SUBTOTAL(103," : String).length = 14 := rfl
  have e2 : ("[" : String).length = 1 := rfl
  have e3 : ("])" : String).length = 2 := rfl
  have e4 : ("Total" : String).length = 5 := rfl
  rw [e1, e2, e3, e4] at hlen
  omega

/-- C10: with a one-title schema the aggregate row is a single cell holding
the SUBTOTAL count formula, and the "Total" label appears nowhere in the row
(index 0 and index -1 are the same cell, and the formula assignment happens
after the label assignment). -/
theorem c10_theorem (kt : List (String × String)) (data : List (List (String × CellVal)))
    (wt st tn : String) (h : kt.length = 1) :
    ∃ wb, create_workbook kt data wt st tn = some wb ∧
      wb.totalRowValues = [subtotalFormula tn ((kt.map Prod.snd).getLastD "")] ∧
      ∀ s ∈ wb.totalRowValues, s ≠ "Total" := by
  obtain ⟨wb, hwb, h1, _, _⟩ := create_workbook_some kt data wt st tn (by omega)
  have htr : totalRowOf kt.length tn ((kt.map Prod.snd).getLastD "") =
      [subtotalFormula tn ((kt.map Prod.snd).getLastD "")] := by
    rw [h]
    rfl
  refine ⟨wb, hwb, by rw [h1, htr], ?_⟩
  intro s hs
  rw [h1, htr] at hs
  rw [List.mem_singleton.mp hs]
  exact subtotalFormula_ne_total tn _

/-- C10 witness: a single-column schema puts only the formula in the
aggregate row. -/
theorem c10_witness :
    ∃ wb, create_workbook [("State", "State")] [] "W" "S" "T" = some wb ∧
      wb.totalRowValues = ["=SUBTOTAL(103,T[State])"] ∧
      ∀ s ∈ wb.totalRowValues, s ≠ "Total" := by
  obtain ⟨wb, hwb, h1, h2⟩ := c10_theorem [("State", "State")] [] "W" "S" "T" rfl
  refine ⟨wb, hwb, ?_, h2⟩
  rw [h1]
  rfl

/-! ## Claim C9 -/

theorem filterMap_congr_mem :
    ∀ (l : List α) (f g : α → Option β), (∀ a ∈ l, f a = g a) →
      l.filterMap f = l.filterMap g
  | [], _, _, _ => rfl
  | a :: l, f, g, h => by
    rw [List.filterMap_cons, List.filterMap_cons, h a (by simp),
      filterMap_congr_mem l f g (fun x hx => h x (List.mem_cons_of_mem a hx))]

theorem filter_lookup_eq :
    ∀ (entries : List (String × List Nat)) (p : String → Bool),
      (entries.map Prod.fst).Nodup →
      ((entries.map Prod.fst).filter p).filterMap
          (fun n => (List.lookup n entries).map (fun b => (n, b))) =
        entries.filter (fun e => p e.1)
  | [], _, _ => rfl
  | e :: rest, p, hnd => by
    have hnotin : e.1 ∉ rest.map Prod.fst := (List.nodup_cons.mp hnd).1
    have hnd' : (rest.map Prod.fst).Nodup := (List.nodup_cons.mp hnd).2
    have hcongr : ((rest.map Prod.fst).filter p).filterMap
          (fun n => (List.lookup n (e :: rest)).map (fun b => (n, b))) =
        ((rest.map Prod.fst).filter p).filterMap
          (fun n => (List.lookup n rest).map (fun b => (n, b))) := by
      apply filterMap_congr_mem
      intro n hn
      have hne : n ≠ e.1 := fun hcontra => hnotin (hcontra ▸ List.mem_of_mem_filter hn)
      have hbeq : (n == e.1) = false := beq_eq_false_iff_ne.mpr hne
      rw [show (e : String × List Nat) = (e.1, e.2) from rfl, List.lookup_cons, hbeq]
    rw [show (e :: rest).map Prod.fst = e.1 :: rest.map Prod.fst from rfl, List.filter_cons]
    by_cases hp : p e.1 = true
    · rw [if_pos hp, List.filterMap_cons]
      have hself : (List.lookup e.1 (e :: rest)).map (fun b => (e.1, b)) = some (e.1, e.2) := by
        rw [show (e : String × List Nat) = (e.1, e.2) from rfl, List.lookup_cons,
          show (e.1 == e.1) = true from beq_self_eq_true e.1]
        rfl
      rw [hself, hcongr, filter_lookup_eq rest p hnd', List.filter_cons, hp, if_pos rfl]
    · rw [if_neg hp, hcongr, filter_lookup_eq rest p hnd', List.filter_cons,
        show p e.1 = false from by simpa using hp]
      simp

/-- C9: the repaired container lists the three expected entries first, in
fixed order, each present only when the input contains it (a missing expected
entry is skipped, not an error), followed by all other input entries in
original relative order with their bytes unchanged. -/
theorem c9_theorem (entries : List (String × List Nat))
    (h : (entries.map Prod.fst).Nodup) :
    fix_workbook_mime_type entries =
      FIRST_NAMES.filterMap (fun n => (List.lookup n entries).map (fun b => (n, b))) ++
        entries.filter (fun e => !(FIRST_NAMES.contains e.1)) := by
  show (FIRST_NAMES ++ (entries.map Prod.fst).filter
      (fun n => !(FIRST_NAMES.contains n))).filterMap
      (fun n => (List.lookup n entries).map (fun b => (n, b))) = _
  rw [List.filterMap_append, filter_lookup_eq entries (fun n => !(FIRST_NAMES.contains n)) h]

/-- C9 witness: an archive holding one expected entry (out of three) and two
other entries is reordered to expected-first with bytes intact; the two
missing expected entries are skipped silently. -/
theorem c9_witness :
    fix_workbook_mime_type [("a", [1]), ("xl/styles.xml", [2]), ("b", [3])] =
      [("xl/styles.xml", [2]), ("a", [1]), ("b", [3])] := by
  rw [c9_theorem [("a", [1]), ("xl/styles.xml", [2]), ("b", [3])] (by decide)]
  rfl
